import Mathlib

/-!
# A shallow embedding of `SILBasicBlock` (swift/include/swift/SIL/SILBasicBlock.h)

The model has three granularities, each faithful to the part of the source it
embeds:

* a *block-local* model (`SILInstruction`, `SILArgument`, `SILBasicBlock`) for
  the member functions whose bodies live in the header: `back`, `getTerminator`,
  the successor-side queries that dispatch through `getTerminator`, the
  predecessor-side queries that read only `PredList`, `dropAllArguments`,
  `dropAllReferences`, and the argument-list mutators;
* a *graph-level* model (`CFG`) for the intrusive predecessor chain maintained
  by `SILSuccessor` (declared in the header, implemented outside it), with edge
  retargeting as the single relinking primitive;
* a *function-level* model (`SILFunctionM`) for `split`, which also touches the
  owning function's block order.

C++ assertion failures (`assert`, `cast`) are modelled as `none`: a query whose
precondition fails aborts instead of returning a value.
-/

abbrev InstId := Nat
abbrev BlockId := Nat
abbrev EdgeId := Nat

/-- A SIL instruction, reduced to what `SILBasicBlock` observes of it: an
identity, the `TermInst` discriminant (`isa<TermInst>`), the operand
references that `SILInstruction::dropAllReferences` clears, and — when it is a
terminator — its fixed-shape list of successor edges (`TermInst::getSuccessors`). -/
structure SILInstruction where
  instId : InstId
  isTerm : Bool
  refs : List Nat
  succs : List EdgeId
deriving DecidableEq, Repr

/-- A block argument (`SILArgument`): a type, an ownership kind, and an
optional `ValueDecl`.  `isFn` tags `SILFunctionArgument` vs `SILPHIArgument`. -/
structure SILArgument where
  ty : Nat
  isFn : Bool
  ownership : Nat
  decl : Option Nat
deriving DecidableEq, Repr

/-- The block-local state of a `SILBasicBlock`: its owned instruction sequence
(`InstList`), its argument list (`ArgumentList`), and its predecessor chain
(`PredList`, modelled as the list of successor-edge ids currently linked into
this block's chain). -/
structure SILBasicBlock where
  instList : List SILInstruction
  argumentList : List SILArgument
  predList : List EdgeId
deriving DecidableEq, Repr

namespace SILBasicBlock

/-- `SILInstruction &back() { return InstList.back(); }` — `back()` on an empty
list is a contract violation, modelled as `none`. -/
def back (b : SILBasicBlock) : Option SILInstruction :=
  b.instList.getLast?

/-- `getTerminator()`: asserts `!InstList.empty()` and returns
`cast<TermInst>(&InstList.back())`.  The failed assertion and the failed
`cast` are both modelled as `none`. -/
def getTerminator (b : SILBasicBlock) : Option SILInstruction :=
  match b.instList.getLast? with
  | none => none
  | some i => if i.isTerm then some i else none

/-- `getSuccessors()` — dispatches through `getTerminator()`. -/
def getSuccessors (b : SILBasicBlock) : Option (List EdgeId) :=
  (getTerminator b).map SILInstruction.succs

/-- `bool succ_empty() const { return getSuccessors().empty(); }` -/
def succ_empty (b : SILBasicBlock) : Option Bool :=
  (getSuccessors b).map List.isEmpty

/-- `getSingleSuccessorBlock()`: null when the successor list is empty or has a
second element, otherwise the first successor's target.  `tgt` resolves an
edge to the block it targets (`SILSuccessor::getBB`).  The outer `Option` is
`getTerminator`'s assertion; the inner one is the returned nullable pointer. -/
def getSingleSuccessorBlock (tgt : EdgeId → BlockId) (b : SILBasicBlock) :
    Option (Option BlockId) :=
  (getSuccessors b).map fun succs =>
    match succs with
    | [e] => some (tgt e)
    | _ => none

/-- `isSuccessorBlock(BB)`: `any_of` over `getSuccessorBlocks()`. -/
def isSuccessorBlock (tgt : EdgeId → BlockId) (b : SILBasicBlock) (c : BlockId) :
    Option Bool :=
  (getSuccessors b).map fun succs => (succs.map tgt).contains c

/-- `bool pred_empty() const { return PredList == nullptr; }` -/
def pred_empty (b : SILBasicBlock) : Bool :=
  b.predList.isEmpty

/-- `getPredecessorBlocks()`: iterate the predecessor chain; dereferencing a
`SILSuccessorIterator` yields the edge's containing instruction's parent
block, resolved here by `own`. -/
def getPredecessorBlocks (own : EdgeId → BlockId) (b : SILBasicBlock) :
    List BlockId :=
  b.predList.map own

/-- `isPredecessorBlock(BB)`: `any_of` over `getPredecessorBlocks()`. -/
def isPredecessorBlock (own : EdgeId → BlockId) (b : SILBasicBlock) (c : BlockId) :
    Bool :=
  (getPredecessorBlocks own b).contains c

/-- `getSinglePredecessorBlock()`: null when the chain is empty or has a second
element, otherwise the first chain entry's source block. -/
def getSinglePredecessorBlock (own : EdgeId → BlockId) (b : SILBasicBlock) :
    Option BlockId :=
  match b.predList with
  | [e] => some (own e)
  | _ => none

/-- `void dropAllArguments() { ArgumentList.clear(); }` -/
def dropAllArguments (b : SILBasicBlock) : SILBasicBlock :=
  { b with argumentList := [] }

end SILBasicBlock

namespace SILInstruction

/-- Modelled from the spec: `SILInstruction::dropAllReferences` (the
instruction abstraction is external to this header) "asks every owned
instruction to drop references to other values" — it clears the instruction's
operand references and removes nothing else. -/
def dropAllReferences (i : SILInstruction) : SILInstruction :=
  { i with refs := [] }

end SILInstruction

namespace SILBasicBlock

/-- `dropAllReferences()`: `dropAllArguments(); for (SILInstruction &I : *this)
I.dropAllReferences();`. -/
def dropAllReferences (b : SILBasicBlock) : SILBasicBlock :=
  let b1 := b.dropAllArguments
  { b1 with instList := b1.instList.map SILInstruction.dropAllReferences }

end SILBasicBlock

/-! ## Argument-list mutators

`insertPHIArgument(unsigned Index, ...)` and
`insertFunctionArgument(unsigned Index, ...)` advance `ArgumentList.begin()`
by `Index` and hand the iterator to the private overload, whose allocation ends
in `insertArgument(Iter, Arg)`, i.e. `ArgumentList.insert(Iter, Arg)` — a
positional vector insertion.  `eraseArgument` and `replacePHIArgument` are
implemented outside the header; modelled from the spec: erasing "removes one
parameter and shifts later indices down", replacing "substitutes a parameter
in place, preserving position". -/

/-- `insertPHIArgument(unsigned Index, SILType Ty, ValueOwnershipKind Kind,
const ValueDecl *D)`: positional insertion of a fresh `SILPHIArgument`. -/
def insertPHIArgument (args : List SILArgument) (Index : Nat) (Ty : Nat)
    (Kind : Nat) (D : Option Nat) : List SILArgument :=
  args.insertIdx Index ⟨Ty, false, Kind, D⟩

/-- `insertFunctionArgument(unsigned Index, SILType Ty, ValueOwnershipKind
OwnershipKind, const ValueDecl *D)`: positional insertion of a fresh
`SILFunctionArgument`. -/
def insertFunctionArgument (args : List SILArgument) (Index : Nat) (Ty : Nat)
    (OwnershipKind : Nat) (D : Option Nat) : List SILArgument :=
  args.insertIdx Index ⟨Ty, true, OwnershipKind, D⟩

/-- Modelled from the spec: `eraseArgument(int Index)` (implemented outside
the header) "removes one parameter and shifts later indices down". -/
def eraseArgument (args : List SILArgument) (Index : Nat) : List SILArgument :=
  args.eraseIdx Index

/-- Modelled from the spec: `replacePHIArgument(unsigned i, SILType Ty,
ValueOwnershipKind Kind, const ValueDecl *D)` (implemented outside the header)
"substitutes a parameter in place, preserving position". -/
def replacePHIArgument (args : List SILArgument) (i : Nat) (Ty : Nat)
    (Kind : Nat) (D : Option Nat) : List SILArgument :=
  args.set i ⟨Ty, false, Kind, D⟩

/-- Modelled from the spec: out-of-range insertion is a contract violation
that "fails loudly and immediately (fatal assertion / abort in checked
builds)", modelled as `none`, "rather than proceeding or silently corrupting
the parameter list". -/
def insertPHIArgumentChecked (args : List SILArgument) (Index : Nat) (Ty : Nat)
    (Kind : Nat) (D : Option Nat) : Option (List SILArgument) :=
  if Index ≤ args.length then some (insertPHIArgument args Index Ty Kind D)
  else none

/-- Modelled from the spec: the bounds contract of
`insertFunctionArgument(unsigned Index, ...)`, as for
`insertPHIArgumentChecked`. -/
def insertFunctionArgumentChecked (args : List SILArgument) (Index : Nat)
    (Ty : Nat) (OwnershipKind : Nat) (D : Option Nat) :
    Option (List SILArgument) :=
  if Index ≤ args.length then
    some (insertFunctionArgument args Index Ty OwnershipKind D)
  else none

/-- Modelled from the spec: the bounds contract of `eraseArgument(int Index)`,
out-of-range erasure aborts (`none`) instead of mutating the list. -/
def eraseArgumentChecked (args : List SILArgument) (Index : Nat) :
    Option (List SILArgument) :=
  if Index < args.length then some (eraseArgument args Index) else none

/-! ## Splicing (`spliceAtEnd`) with parent back-references

`void spliceAtEnd(SILBasicBlock *Other) { InstList.splice(end(),
Other->InstList); }`.  The `llvm::iplist` splice moves every node of
`Other->InstList` before `end()` and leaves the source list empty; modelled
from the spec for the part implemented by the instruction list's transfer
hook: "each moved instruction's back-reference to its containing block is
updated as part of the splice, not lazily". -/

/-- The state `spliceAtEnd` touches: each block's owned instruction sequence
and each instruction's containing-block back-reference. -/
structure SpliceState where
  instLists : BlockId → List InstId
  instParent : InstId → BlockId

/-- `dst->spliceAtEnd(other)`: `dst` receives all of `other`'s instructions
at its end, `other` is left empty, and every moved instruction's parent
back-reference is retargeted to `dst` as part of the operation. -/
def spliceAtEnd (st : SpliceState) (dst other : BlockId) : SpliceState :=
  { instLists := fun x =>
      if x = dst then st.instLists dst ++ st.instLists other
      else if x = other then [] else st.instLists x,
    instParent := fun i =>
      if i ∈ st.instLists other then dst else st.instParent i }

/-! ## The graph-level model: successor edges and the predecessor chain

`SILSuccessor` (a `friend` of `SILBasicBlock`, implemented outside the header)
keeps, per block, the intrusive chain `PredList` of the successor edges
currently targeting it.  Modelled from the spec: "an edge is a member of
target.predecessors() iff its target field equals that block; retargeting an
edge must atomically (with respect to sequential mutation, not concurrency)
unlink from the old chain and link into the new one". -/

/-- The control-flow graph of one function.  `succEdges b` is the fixed-shape
successor-edge list of `b`'s terminator (never changed by retargeting);
`edgeOwner e` is the edge's containing instruction's parent block;
`edgeTarget e` is the edge's current target field; `predHead b` is `b`'s
intrusive predecessor chain, as a list of edge ids. -/
structure CFG where
  blockIds : List BlockId
  succEdges : BlockId → List EdgeId
  edgeOwner : EdgeId → BlockId
  edgeTarget : EdgeId → BlockId
  predHead : BlockId → List EdgeId

namespace CFG

/-- All successor edges of the function: each terminator's edges, in block
order. -/
def edgeIds (g : CFG) : List EdgeId :=
  g.blockIds.flatMap g.succEdges

/-- Well-formedness of the graph state: block and edge identities are not
duplicated, each edge's stored owner really owns it, its chains have no
duplicate entries, and the chain invariant holds — an edge is in a block's
predecessor chain iff it exists and its target field equals that block. -/
structure WF (g : CFG) : Prop where
  blocksNodup : g.blockIds.Nodup
  edgesNodup : (edgeIds g).Nodup
  ownerMem : ∀ e ∈ edgeIds g, g.edgeOwner e ∈ g.blockIds ∧ e ∈ g.succEdges (g.edgeOwner e)
  chainNodup : ∀ b, (g.predHead b).Nodup
  chainMem : ∀ b e, e ∈ g.predHead b ↔ e ∈ edgeIds g ∧ g.edgeTarget e = b

/-- The predecessor chains after edge `e` is unlinked from its current
target's chain (the chain of every other block is untouched). -/
def unlinkChain (g : CFG) (e : EdgeId) (b : BlockId) : List EdgeId :=
  if b = g.edgeTarget e then (g.predHead b).erase e else g.predHead b

/-- Modelled from the spec: retargeting one successor edge — the single
relinking primitive.  The edge is unlinked from its old target's chain,
its target field is rewritten, and it is linked into the new target's
chain. -/
def retarget (g : CFG) (e : EdgeId) (newTgt : BlockId) : CFG :=
  { g with
    edgeTarget := fun x => if x = e then newTgt else g.edgeTarget x,
    predHead := fun b =>
      if b = newTgt then e :: unlinkChain g e b else unlinkChain g e b }

/-- Apply a sequence of edge retargets, first command first. -/
def applyRetargets (g : CFG) : List (EdgeId × BlockId) → CFG
  | [] => g
  | (e, t) :: rest => applyRetargets (retarget g e t) rest

/-- `getSuccessorBlocks()` at graph level: the targets of the terminator's
successor edges, in edge order. -/
def successorBlocks (g : CFG) (b : BlockId) : List BlockId :=
  (g.succEdges b).map g.edgeTarget

/-- `getPredecessorBlocks()` at graph level: one source block per chain entry,
the entry's containing instruction's parent. -/
def predecessorBlocks (g : CFG) (b : BlockId) : List BlockId :=
  (g.predHead b).map g.edgeOwner

/-- Out-degree: the number of successor edges of `b`'s terminator. -/
def outDegree (g : CFG) (b : BlockId) : Nat :=
  (g.succEdges b).length

/-- In-degree: the number of existing successor edges whose target field is
`b`. -/
def inDegree (g : CFG) (b : BlockId) : Nat :=
  (edgeIds g).countP fun e => g.edgeTarget e = b

/-- `getSingleSuccessorBlock()` at graph level (for a block with a
terminator): null when the successor list is empty or has a second element. -/
def getSingleSuccessorBlock (g : CFG) (b : BlockId) : Option BlockId :=
  match (g.succEdges b).map g.edgeTarget with
  | [t] => some t
  | _ => none

/-- `getSinglePredecessorBlock()` at graph level: null when the chain is empty
or has a second element, otherwise the single chain entry's source block. -/
def getSinglePredecessorBlock (g : CFG) (b : BlockId) : Option BlockId :=
  match g.predHead b with
  | [e] => some (g.edgeOwner e)
  | _ => none

end CFG

/-! ## The function-level model: `split`

`SILBasicBlock *split(iterator I)` is implemented outside the header.
Modelled from the spec: "creates a new block immediately after this one in the
function's block order; every instruction from `position` to the end
(inclusive) is moved, in order, to the new block; this block is left *without*
a terminator (instructions strictly before `position` remain)". -/

/-- A function as its ordered block list; each entry pairs a block id with the
block's owned instruction sequence. -/
structure SILFunctionM where
  blocks : List (BlockId × List SILInstruction)

/-- Modelled from the spec: `b->split(k)` inside function `f`, with `newB` the
id of the newly allocated block.  `b` keeps the instructions strictly before
position `k`; the new block receives the instructions from `k` to the end, in
order, and is inserted immediately after `b` in the function's block order. -/
def SILFunctionM.split (f : SILFunctionM) (b newB : BlockId) (k : Nat) :
    SILFunctionM :=
  ⟨f.blocks.flatMap fun p =>
    if p.1 = b then [(b, p.2.take k), (newB, p.2.drop k)] else [p]⟩

/-- The data-model invariant on a fully constructed block's instruction
sequence: non-empty, "the last element, if any, is a control-transfer
instruction, and no earlier element is". -/
def wellFormedSeq (insts : List SILInstruction) : Prop :=
  insts ≠ [] ∧
    ∀ (i : Nat) (h : i < insts.length),
      (insts[i].isTerm = true ↔ i = insts.length - 1)

/-! ## Concrete states used to exercise the model -/

/-- A concrete two-block splice state: block `0` holds instructions `[1, 2]`,
block `1` holds `[3, 4]`. -/
def spliceExample : SpliceState where
  instLists := fun x => if x = 0 then [1, 2] else if x = 1 then [3, 4] else []
  instParent := fun i => if i = 1 ∨ i = 2 then 0 else 1

/-- A concrete three-block graph: block `0`'s terminator owns edges `10` and
`11`, both targeting block `1` (two edges from the same source); block `1`'s
terminator owns edge `12`, targeting block `2`; block `2`'s terminator owns no
edges. -/
def exampleCFG : CFG where
  blockIds := [0, 1, 2]
  succEdges := fun b => if b = 0 then [10, 11] else if b = 1 then [12] else []
  edgeOwner := fun e => if e = 12 then 1 else 0
  edgeTarget := fun e => if e = 12 then 2 else if e = 10 ∨ e = 11 then 1 else 0
  predHead := fun b => if b = 1 then [10, 11] else if b = 2 then [12] else []

/-! ## Shared lemmas -/

theorem exampleCFG_WF : CFG.WF exampleCFG := by
  refine ⟨by decide, by decide, by decide, ?_, ?_⟩
  · intro b
    simp only [exampleCFG]
    split
    · decide
    · split
      · decide
      · decide
  · intro b e
    by_cases h1 : b = 1 <;> by_cases h2 : b = 2 <;>
        by_cases he0 : e = 10 <;> by_cases he1 : e = 11 <;> by_cases he2 : e = 12 <;>
      simp [exampleCFG, CFG.edgeIds, h1, h2, he0, he1, he2, List.flatMap] <;> tauto

/-! ## Claim theorems -/

/-- C5: on a block whose instruction sequence is non-empty and ends in a
control-transfer instruction, `getTerminator()` returns that last instruction
(the assertion's failure branch is unreachable); on a block with an empty
instruction sequence, `back()` and `getTerminator()` abort instead of
returning a value. -/
theorem c5_getTerminator_contract (b : SILBasicBlock) :
    (∀ (h : b.instList ≠ []), (b.instList.getLast h).isTerm = true →
      b.getTerminator = some (b.instList.getLast h) ∧
      b.back = some (b.instList.getLast h)) ∧
    (b.instList = [] → b.back = none ∧ b.getTerminator = none) := by
  refine ⟨fun h hterm => ?_, fun h => ?_⟩
  · rw [SILBasicBlock.getTerminator, SILBasicBlock.back,
      List.getLast?_eq_getLast _ h]
    simp [hterm]
  · simp [SILBasicBlock.getTerminator, SILBasicBlock.back, h]

theorem c5_getTerminator_contract_witness :
    (SILBasicBlock.mk [⟨0, true, [], []⟩] [] []).getTerminator =
      some ⟨0, true, [], []⟩ ∧
    (SILBasicBlock.mk [] [] []).back = none ∧
    (SILBasicBlock.mk [] [] []).getTerminator = none := by
  constructor
  · have h := (c5_getTerminator_contract
      (SILBasicBlock.mk [⟨0, true, [], []⟩] [] [])).1 (by decide) (by decide)
    simpa using h.1
  · exact (c5_getTerminator_contract (SILBasicBlock.mk [] [] [])).2 rfl

/-- C6: out-of-range argument insertion or erasure is a contract violation
that aborts (modelled `none`) rather than producing a parameter list, and the
in-range operations produce a list of the expected length. -/
theorem c6_argument_bounds_contract (args : List SILArgument)
    (Index Ty Kind OwnershipKind : Nat) (D : Option Nat) :
    (args.length < Index →
      insertPHIArgumentChecked args Index Ty Kind D = none ∧
      insertFunctionArgumentChecked args Index Ty OwnershipKind D = none) ∧
    (args.length ≤ Index → eraseArgumentChecked args Index = none) ∧
    (Index ≤ args.length →
      ∃ l, insertPHIArgumentChecked args Index Ty Kind D = some l ∧
        l.length = args.length + 1) ∧
    (Index ≤ args.length →
      ∃ l, insertFunctionArgumentChecked args Index Ty OwnershipKind D = some l ∧
        l.length = args.length + 1) ∧
    (Index < args.length →
      ∃ l, eraseArgumentChecked args Index = some l ∧
        l.length = args.length - 1) := by
  refine ⟨fun h => ?_, fun h => ?_, fun h => ?_, fun h => ?_, fun h => ?_⟩
  · constructor <;>
      simp [insertPHIArgumentChecked, insertFunctionArgumentChecked] <;> omega
  · simp [eraseArgumentChecked, eraseArgument]
    omega
  · refine ⟨insertPHIArgument args Index Ty Kind D,
      by rw [insertPHIArgumentChecked, if_pos h], ?_⟩
    simpa [insertPHIArgument] using List.length_insertIdx _ _ h
  · refine ⟨insertFunctionArgument args Index Ty OwnershipKind D,
      by rw [insertFunctionArgumentChecked, if_pos h], ?_⟩
    simpa [insertFunctionArgument] using List.length_insertIdx _ _ h
  · refine ⟨eraseArgument args Index,
      by rw [eraseArgumentChecked, if_pos h], ?_⟩
    simp [eraseArgument, List.length_eraseIdx, h]

theorem c6_argument_bounds_contract_witness :
    (insertPHIArgumentChecked [⟨1, false, 2, none⟩] 2 0 0 none = none ∧
      insertFunctionArgumentChecked [⟨1, false, 2, none⟩] 2 0 0 none = none) ∧
    eraseArgumentChecked [⟨1, false, 2, none⟩] 1 = none ∧
    (∃ l, insertPHIArgumentChecked [⟨1, false, 2, none⟩] 1 0 0 none = some l ∧
      l.length = 2) ∧
    (∃ l, eraseArgumentChecked [⟨1, false, 2, none⟩] 0 = some l ∧
      l.length = 0) := by
  refine ⟨?_, ?_, ?_, ?_⟩
  · exact (c6_argument_bounds_contract [⟨1, false, 2, none⟩] 2 0 0 0 none).1
      (by decide)
  · exact (c6_argument_bounds_contract [⟨1, false, 2, none⟩] 2 0 0 0 none).2.1
      (by decide)
  · exact (c6_argument_bounds_contract [⟨1, false, 2, none⟩] 1 0 0 0 none).2.2.1
      (by decide)
  · exact (c6_argument_bounds_contract [⟨1, false, 2, none⟩] 0 0 0 0 none).2.2.2.2
      (by decide)

/-- C7: for distinct blocks, `dst->spliceAtEnd(other)` leaves `dst` with its
old sequence followed by `other`'s old sequence in order, leaves `other`
empty, and updates every moved instruction's containing-block back-reference
to `dst` as part of the splice. -/
theorem c7_spliceAtEnd_moves_all (st : SpliceState) (dst other : BlockId)
    (h : dst ≠ other) :
    (spliceAtEnd st dst other).instLists dst =
      st.instLists dst ++ st.instLists other ∧
    (spliceAtEnd st dst other).instLists other = [] ∧
    (∀ i ∈ st.instLists other, (spliceAtEnd st dst other).instParent i = dst) := by
  have h' : other ≠ dst := Ne.symm h
  refine ⟨?_, ?_, fun i hi => ?_⟩
  · simp [spliceAtEnd]
  · simp [spliceAtEnd, h']
  · simp [spliceAtEnd, hi]

theorem c7_spliceAtEnd_moves_all_witness :
    (spliceAtEnd spliceExample 0 1).instLists 0 = [1, 2, 3, 4] ∧
    (spliceAtEnd spliceExample 0 1).instLists 1 = [] ∧
    (spliceAtEnd spliceExample 0 1).instParent 3 = 0 := by
  have h := c7_spliceAtEnd_moves_all spliceExample 0 1 (by decide)
  exact ⟨h.1.trans (by decide), h.2.1, h.2.2 3 (by decide)⟩

/-- C8: `dropAllReferences()` empties the argument list, invokes
`dropAllReferences` on every owned instruction, and otherwise leaves the
instruction sequence (same instructions, same order), the terminator's
successor edges, and the predecessor chain untouched. -/
theorem c8_dropAllReferences_frame (b : SILBasicBlock) :
    b.dropAllReferences.argumentList = [] ∧
    b.dropAllReferences.instList =
      b.instList.map SILInstruction.dropAllReferences ∧
    b.dropAllReferences.instList.map SILInstruction.instId =
      b.instList.map SILInstruction.instId ∧
    (∀ i ∈ b.dropAllReferences.instList, i.refs = []) ∧
    b.dropAllReferences.instList.map SILInstruction.isTerm =
      b.instList.map SILInstruction.isTerm ∧
    b.dropAllReferences.instList.map SILInstruction.succs =
      b.instList.map SILInstruction.succs ∧
    b.dropAllReferences.predList = b.predList := by
  refine ⟨rfl, rfl, ?_, ?_, ?_, ?_, rfl⟩
  · simp only [SILBasicBlock.dropAllReferences, SILBasicBlock.dropAllArguments,
      List.map_map]
    exact List.map_congr_left fun a _ => rfl
  · intro i hi
    simp only [SILBasicBlock.dropAllReferences, SILBasicBlock.dropAllArguments,
      List.mem_map] at hi
    obtain ⟨a, -, rfl⟩ := hi
    rfl
  · simp only [SILBasicBlock.dropAllReferences, SILBasicBlock.dropAllArguments,
      List.map_map]
    exact List.map_congr_left fun a _ => rfl
  · simp only [SILBasicBlock.dropAllReferences, SILBasicBlock.dropAllArguments,
      List.map_map]
    exact List.map_congr_left fun a _ => rfl

/-- C10: every successor-side query dispatches through `getTerminator()` and
aborts on a block with an empty instruction sequence, while every
predecessor-side query is total — its result is determined by `PredList`
alone, so it returns normally on any block, including an empty,
terminator-less one. -/
theorem c10_succ_queries_assert_pred_queries_total
    (b b' : SILBasicBlock) (tgt own : EdgeId → BlockId) (c : BlockId) :
    (b.instList = [] →
      b.getTerminator = none ∧ b.getSuccessors = none ∧ b.succ_empty = none ∧
      b.getSingleSuccessorBlock tgt = none ∧ b.isSuccessorBlock tgt c = none) ∧
    (b'.predList = b.predList →
      b'.pred_empty = b.pred_empty ∧
      b'.getPredecessorBlocks own = b.getPredecessorBlocks own ∧
      b'.getSinglePredecessorBlock own = b.getSinglePredecessorBlock own ∧
      b'.isPredecessorBlock own c = b.isPredecessorBlock own c) := by
  constructor
  · intro h
    simp [SILBasicBlock.getTerminator, SILBasicBlock.getSuccessors,
      SILBasicBlock.succ_empty, SILBasicBlock.getSingleSuccessorBlock,
      SILBasicBlock.isSuccessorBlock, h]
  · intro h
    simp [SILBasicBlock.pred_empty, SILBasicBlock.getPredecessorBlocks,
      SILBasicBlock.getSinglePredecessorBlock, SILBasicBlock.isPredecessorBlock,
      h]

theorem c10_succ_queries_assert_pred_queries_total_witness :
    ((SILBasicBlock.mk [] [] [7]).getTerminator = none ∧
      (SILBasicBlock.mk [] [] [7]).getSuccessors = none ∧
      (SILBasicBlock.mk [] [] [7]).succ_empty = none ∧
      (SILBasicBlock.mk [] [] [7]).getSingleSuccessorBlock (fun _ => 0) = none ∧
      (SILBasicBlock.mk [] [] [7]).isSuccessorBlock (fun _ => 0) 0 = none) ∧
    ((SILBasicBlock.mk [⟨0, true, [], []⟩] [] [7]).pred_empty =
      (SILBasicBlock.mk [] [] [7]).pred_empty ∧
      (SILBasicBlock.mk [⟨0, true, [], []⟩] [] [7]).getPredecessorBlocks
          (fun _ => 0) =
        (SILBasicBlock.mk [] [] [7]).getPredecessorBlocks (fun _ => 0) ∧
      (SILBasicBlock.mk [⟨0, true, [], []⟩] [] [7]).getSinglePredecessorBlock
          (fun _ => 0) =
        (SILBasicBlock.mk [] [] [7]).getSinglePredecessorBlock (fun _ => 0) ∧
      (SILBasicBlock.mk [⟨0, true, [], []⟩] [] [7]).isPredecessorBlock
          (fun _ => 0) 0 =
        (SILBasicBlock.mk [] [] [7]).isPredecessorBlock (fun _ => 0) 0) := by
  constructor
  · exact (c10_succ_queries_assert_pred_queries_total
      (SILBasicBlock.mk [] [] [7]) (SILBasicBlock.mk [] [] [7])
      (fun _ => 0) (fun _ => 0) 0).1 rfl
  · exact (c10_succ_queries_assert_pred_queries_total
      (SILBasicBlock.mk [] [] [7]) (SILBasicBlock.mk [⟨0, true, [], []⟩] [] [7])
      (fun _ => 0) (fun _ => 0) 0).2 rfl

theorem getElem?_insertIdx_lt {α : Type} (l : List α) (a : α) (j i : Nat)
    (hj : j ≤ l.length) (hij : i < j) : (l.insertIdx j a)[i]? = l[i]? := by
  have hi : i < l.length := lt_of_lt_of_le hij hj
  have hi' : i < (l.insertIdx j a).length := by
    rw [List.length_insertIdx _ _ hj]; omega
  rw [List.getElem?_eq_getElem hi', List.getElem?_eq_getElem hi,
    List.getElem_insertIdx_of_lt _ _ _ _ hij hi]

theorem getElem?_insertIdx_self {α : Type} (l : List α) (a : α) (j : Nat)
    (hj : j ≤ l.length) : (l.insertIdx j a)[j]? = some a := by
  have hj' : j < (l.insertIdx j a).length := by
    rw [List.length_insertIdx _ _ hj]; omega
  rw [List.getElem?_eq_getElem hj', List.getElem_insertIdx_self _ _ _ hj]

theorem getElem?_insertIdx_ge {α : Type} (l : List α) (a : α) (j i : Nat)
    (hj : j ≤ l.length) (hij : j ≤ i) : (l.insertIdx j a)[i + 1]? = l[i]? := by
  have hlen : (l.insertIdx j a).length = l.length + 1 :=
    List.length_insertIdx _ _ hj
  by_cases hi : i < l.length
  · have hi' : i + 1 < (l.insertIdx j a).length := by omega
    rw [List.getElem?_eq_getElem hi', List.getElem?_eq_getElem hi]
    obtain ⟨k, rfl⟩ : ∃ k, i = j + k := ⟨i - j, by omega⟩
    exact congrArg some (List.getElem_insertIdx_add_succ l a j k (by omega))
  · rw [List.getElem?_eq_none (by omega : l.length ≤ i),
      List.getElem?_eq_none (by omega : (l.insertIdx j a).length ≤ i + 1)]

theorem getElem?_eraseIdx_lt {α : Type} (l : List α) (j i : Nat)
    (hj : j < l.length) (hij : i < j) : (l.eraseIdx j)[i]? = l[i]? := by
  have hlen : (l.eraseIdx j).length = l.length - 1 := by
    rw [List.length_eraseIdx, if_pos hj]
  have hi : i < l.length := by omega
  have hi' : i < (l.eraseIdx j).length := by omega
  rw [List.getElem?_eq_getElem hi', List.getElem?_eq_getElem hi]
  refine congrArg some ?_
  rw [List.getElem_eraseIdx]
  simp [hij]

theorem getElem?_eraseIdx_ge {α : Type} (l : List α) (j i : Nat)
    (hj : j < l.length) (hij : j ≤ i) : (l.eraseIdx j)[i]? = l[i + 1]? := by
  have hlen : (l.eraseIdx j).length = l.length - 1 := by
    rw [List.length_eraseIdx, if_pos hj]
  by_cases hi : i + 1 < l.length
  · have hi' : i < (l.eraseIdx j).length := by omega
    rw [List.getElem?_eq_getElem hi', List.getElem?_eq_getElem hi]
    refine congrArg some ?_
    rw [List.getElem_eraseIdx]
    simp [Nat.not_lt.mpr hij]
  · rw [List.getElem?_eq_none (by omega : l.length ≤ i + 1),
      List.getElem?_eq_none (by omega : (l.eraseIdx j).length ≤ i)]

/-- C4: positional index shifting of the argument-list mutators — insertion at
`j` places the new parameter at `j` and shifts indices `≥ j` up by one,
erasure at `j` shifts later indices down by one, replacement at `j`
substitutes in place and leaves every other index unchanged. -/
theorem c4_argument_index_shifting (args : List SILArgument) (j : Nat)
    (Ty Kind OwnershipKind : Nat) (D : Option Nat) (hj : j ≤ args.length) :
    ((∀ i, i < j → (insertPHIArgument args j Ty Kind D)[i]? = args[i]?) ∧
      (insertPHIArgument args j Ty Kind D)[j]? = some ⟨Ty, false, Kind, D⟩ ∧
      (∀ i, j ≤ i → (insertPHIArgument args j Ty Kind D)[i + 1]? = args[i]?)) ∧
    ((∀ i, i < j →
        (insertFunctionArgument args j Ty OwnershipKind D)[i]? = args[i]?) ∧
      (insertFunctionArgument args j Ty OwnershipKind D)[j]? =
        some ⟨Ty, true, OwnershipKind, D⟩ ∧
      (∀ i, j ≤ i →
        (insertFunctionArgument args j Ty OwnershipKind D)[i + 1]? = args[i]?)) ∧
    (j < args.length →
      (∀ i, i < j → (eraseArgument args j)[i]? = args[i]?) ∧
      (∀ i, j ≤ i → (eraseArgument args j)[i]? = args[i + 1]?)) ∧
    (j < args.length →
      (replacePHIArgument args j Ty Kind D)[j]? = some ⟨Ty, false, Kind, D⟩ ∧
      (∀ i, i ≠ j → (replacePHIArgument args j Ty Kind D)[i]? = args[i]?)) := by
  refine ⟨⟨fun i hi => ?_, ?_, fun i hi => ?_⟩,
    ⟨fun i hi => ?_, ?_, fun i hi => ?_⟩,
    fun hlt => ⟨fun i hi => ?_, fun i hi => ?_⟩,
    fun hlt => ⟨?_, fun i hi => ?_⟩⟩
  · exact getElem?_insertIdx_lt args _ j i hj hi
  · exact getElem?_insertIdx_self args _ j hj
  · exact getElem?_insertIdx_ge args _ j i hj hi
  · exact getElem?_insertIdx_lt args _ j i hj hi
  · exact getElem?_insertIdx_self args _ j hj
  · exact getElem?_insertIdx_ge args _ j i hj hi
  · exact getElem?_eraseIdx_lt args j i hlt hi
  · exact getElem?_eraseIdx_ge args j i hlt hi
  · exact List.getElem?_set_self hlt
  · exact List.getElem?_set_ne (Ne.symm hi)

theorem c4_argument_index_shifting_witness :
    ((insertPHIArgument [⟨5, false, 0, none⟩, ⟨6, false, 0, none⟩] 1 7 0
        none)[0]? = some ⟨5, false, 0, none⟩ ∧
      (insertPHIArgument [⟨5, false, 0, none⟩, ⟨6, false, 0, none⟩] 1 7 0
        none)[1]? = some ⟨7, false, 0, none⟩ ∧
      (insertPHIArgument [⟨5, false, 0, none⟩, ⟨6, false, 0, none⟩] 1 7 0
        none)[2]? = some ⟨6, false, 0, none⟩) ∧
    ((eraseArgument [⟨5, false, 0, none⟩, ⟨6, false, 0, none⟩] 1)[0]? =
      some ⟨5, false, 0, none⟩) ∧
    ((replacePHIArgument [⟨5, false, 0, none⟩, ⟨6, false, 0, none⟩] 1 7 0
        none)[1]? = some ⟨7, false, 0, none⟩ ∧
      (replacePHIArgument [⟨5, false, 0, none⟩, ⟨6, false, 0, none⟩] 1 7 0
        none)[0]? = some ⟨5, false, 0, none⟩) := by
  have h := c4_argument_index_shifting
    [⟨5, false, 0, none⟩, ⟨6, false, 0, none⟩] 1 7 0 0 none (by decide)
  refine ⟨⟨?_, h.1.2.1, ?_⟩, ?_, h.2.2.2 (by decide) |>.1, ?_⟩
  · exact (h.1.1 0 (by decide)).trans (by decide)
  · exact (h.1.2.2 1 (by decide)).trans (by decide)
  · exact ((h.2.2.1 (by decide)).1 0 (by decide)).trans (by decide)
  · exact ((h.2.2.2 (by decide)).2 0 (by decide)).trans (by decide)

theorem CFG.nodup_unlinkChain {g : CFG} (hg : CFG.WF g) (e : EdgeId)
    (b : BlockId) : (CFG.unlinkChain g e b).Nodup := by
  unfold CFG.unlinkChain
  split
  · exact (hg.chainNodup b).erase e
  · exact hg.chainNodup b

theorem CFG.mem_unlinkChain {g : CFG} (hg : CFG.WF g) (x e : EdgeId)
    (b : BlockId) : x ∈ CFG.unlinkChain g e b ↔ x ≠ e ∧ x ∈ g.predHead b := by
  unfold CFG.unlinkChain
  split
  · exact (hg.chainNodup b).mem_erase_iff
  · rename_i hne
    refine ⟨fun hx => ⟨?_, hx⟩, And.right⟩
    rintro rfl
    exact hne ((hg.chainMem b x).mp hx).2.symm

theorem CFG.edgeIds_retarget (g : CFG) (e : EdgeId) (t : BlockId) :
    CFG.edgeIds (CFG.retarget g e t) = CFG.edgeIds g :=
  rfl

theorem CFG.WF.retarget {g : CFG} (hg : CFG.WF g) {e : EdgeId}
    (he : e ∈ CFG.edgeIds g) (t : BlockId) : CFG.WF (CFG.retarget g e t) := by
  refine ⟨hg.blocksNodup, hg.edgesNodup, hg.ownerMem, ?_, ?_⟩
  · intro b
    show List.Nodup
      (if b = t then e :: CFG.unlinkChain g e b else CFG.unlinkChain g e b)
    split
    · exact List.nodup_cons.mpr
        ⟨fun hx => ((CFG.mem_unlinkChain hg e e b).mp hx).1 rfl,
          CFG.nodup_unlinkChain hg e b⟩
    · exact CFG.nodup_unlinkChain hg e b
  · intro b x
    show x ∈ (if b = t then e :: CFG.unlinkChain g e b else CFG.unlinkChain g e b) ↔
      x ∈ CFG.edgeIds g ∧ (if x = e then t else g.edgeTarget x) = b
    by_cases hbt : b = t <;> by_cases hxe : x = e
    · rw [if_pos hbt, if_pos hxe]
      subst hxe
      exact ⟨fun _ => ⟨he, hbt.symm⟩, fun _ => List.mem_cons_self _ _⟩
    · rw [if_pos hbt, if_neg hxe]
      rw [List.mem_cons, CFG.mem_unlinkChain hg x e b, hg.chainMem b x, hbt]
      tauto
    · rw [if_neg hbt, if_pos hxe]
      rw [CFG.mem_unlinkChain hg x e b]
      constructor
      · rintro ⟨hne, -⟩
        exact absurd hxe hne
      · rintro ⟨-, hb⟩
        exact absurd hb.symm hbt
    · rw [if_neg hbt, if_neg hxe]
      rw [CFG.mem_unlinkChain hg x e b, hg.chainMem b x]
      tauto

theorem CFG.applyRetargets_fixed (g : CFG) (cmds : List (EdgeId × BlockId)) :
    (CFG.applyRetargets g cmds).blockIds = g.blockIds ∧
    (CFG.applyRetargets g cmds).succEdges = g.succEdges ∧
    (CFG.applyRetargets g cmds).edgeOwner = g.edgeOwner := by
  induction cmds generalizing g with
  | nil => exact ⟨rfl, rfl, rfl⟩
  | cons c rest ih =>
    obtain ⟨e, t⟩ := c
    exact ih (CFG.retarget g e t)

theorem CFG.edgeIds_applyRetargets (g : CFG) (cmds : List (EdgeId × BlockId)) :
    CFG.edgeIds (CFG.applyRetargets g cmds) = CFG.edgeIds g := by
  unfold CFG.edgeIds
  rw [(CFG.applyRetargets_fixed g cmds).1, (CFG.applyRetargets_fixed g cmds).2.1]

theorem CFG.WF.applyRetargets {g : CFG} (hg : CFG.WF g)
    {cmds : List (EdgeId × BlockId)} (hc : ∀ c ∈ cmds, c.1 ∈ CFG.edgeIds g) :
    CFG.WF (CFG.applyRetargets g cmds) := by
  induction cmds generalizing g with
  | nil => exact hg
  | cons c rest ih =>
    obtain ⟨e, t⟩ := c
    have he : e ∈ CFG.edgeIds g := hc (e, t) (List.mem_cons_self _ _)
    exact ih (hg.retarget he t) fun c' hc' => hc c' (List.mem_cons_of_mem _ hc')

/-- C2: after any sequence of edge retargets from a well-formed state, every
successor edge `e` owned by `A`'s terminator with target `B` is in `B`'s
predecessor chain and `B` is among `A`'s successor blocks; conversely an edge
is in a block's predecessor chain only if its target field equals that
block. -/
theorem c2_predecessor_successor_duality (g : CFG) (hg : CFG.WF g)
    (cmds : List (EdgeId × BlockId)) (hc : ∀ c ∈ cmds, c.1 ∈ CFG.edgeIds g) :
    (∀ A B e, A ∈ (CFG.applyRetargets g cmds).blockIds →
      e ∈ (CFG.applyRetargets g cmds).succEdges A →
      (CFG.applyRetargets g cmds).edgeTarget e = B →
      e ∈ (CFG.applyRetargets g cmds).predHead B ∧
        B ∈ CFG.successorBlocks (CFG.applyRetargets g cmds) A) ∧
    (∀ B e, e ∈ (CFG.applyRetargets g cmds).predHead B →
      (CFG.applyRetargets g cmds).edgeTarget e = B) := by
  have hwf : CFG.WF (CFG.applyRetargets g cmds) := hg.applyRetargets hc
  constructor
  · intro A B e hA he htgt
    have heid : e ∈ CFG.edgeIds (CFG.applyRetargets g cmds) :=
      List.mem_flatMap.mpr ⟨A, hA, he⟩
    refine ⟨(hwf.chainMem B e).mpr ⟨heid, htgt⟩, ?_⟩
    exact htgt ▸ List.mem_map_of_mem (CFG.applyRetargets g cmds).edgeTarget he
  · intro B e hmem
    exact ((hwf.chainMem B e).mp hmem).2

theorem c2_predecessor_successor_duality_witness :
    11 ∈ (CFG.applyRetargets exampleCFG [(11, 2)]).predHead 2 ∧
    2 ∈ CFG.successorBlocks (CFG.applyRetargets exampleCFG [(11, 2)]) 0 ∧
    (CFG.applyRetargets exampleCFG [(11, 2)]).edgeTarget 11 = 2 := by
  have h := c2_predecessor_successor_duality exampleCFG exampleCFG_WF
    [(11, 2)] (by decide)
  have h1 := h.1 0 2 11 (by decide) (by decide) (by decide)
  exact ⟨h1.1, h1.2, h.2 2 11 h1.1⟩

theorem CFG.predHead_perm {g : CFG} (hg : CFG.WF g) (b : BlockId) :
    (g.predHead b).Perm
      ((CFG.edgeIds g).filter fun e => g.edgeTarget e = b) := by
  rw [List.perm_ext_iff_of_nodup (hg.chainNodup b) (hg.edgesNodup.filter _)]
  intro x
  rw [hg.chainMem b x, List.mem_filter]
  simp

theorem CFG.length_predHead {g : CFG} (hg : CFG.WF g) (b : BlockId) :
    (g.predHead b).length = CFG.inDegree g b := by
  rw [(CFG.predHead_perm hg b).length_eq, CFG.inDegree,
    List.countP_eq_length_filter]

/-- C3: `getSingleSuccessorBlock()` returns a block iff the terminator has
exactly one successor edge (out-degree 1), and `getSinglePredecessorBlock()`
returns a block iff exactly one successor edge currently targets the block
(in-degree 1); both are null at degree 0 or ≥ 2. -/
theorem c3_single_successor_single_predecessor (g : CFG) (b : BlockId)
    (hg : CFG.WF g) :
    ((CFG.getSingleSuccessorBlock g b).isSome ↔ CFG.outDegree g b = 1) ∧
    ((CFG.getSinglePredecessorBlock g b).isSome ↔ CFG.inDegree g b = 1) := by
  constructor
  · rcases h : g.succEdges b with _ | ⟨x, _ | ⟨y, l⟩⟩ <;>
      simp [CFG.getSingleSuccessorBlock, CFG.outDegree, h]
  · rw [← CFG.length_predHead hg b]
    rcases h : g.predHead b with _ | ⟨x, _ | ⟨y, l⟩⟩ <;>
      simp [CFG.getSinglePredecessorBlock, h]

theorem c3_single_successor_single_predecessor_witness :
    ((CFG.getSinglePredecessorBlock exampleCFG 2).isSome = true ∧
      CFG.inDegree exampleCFG 2 = 1) ∧
    ((CFG.getSingleSuccessorBlock exampleCFG 1).isSome = true ∧
      CFG.outDegree exampleCFG 1 = 1) ∧
    CFG.inDegree exampleCFG 1 = 2 ∧
    ¬(CFG.getSinglePredecessorBlock exampleCFG 1).isSome = true := by
  have h2 := c3_single_successor_single_predecessor exampleCFG 2 exampleCFG_WF
  have h1 := c3_single_successor_single_predecessor exampleCFG 1 exampleCFG_WF
  refine ⟨⟨h2.2.mpr (by decide), by decide⟩, ⟨h1.1.mpr (by decide), by decide⟩,
    by decide, fun hs => ?_⟩
  have := h1.2.mp hs
  rw [show CFG.inDegree exampleCFG 1 = 2 from by decide] at this
  exact absurd this (by decide)

theorem CFG.owner_eq {g : CFG} (hg : CFG.WF g) {A : BlockId} {e : EdgeId}
    (hA : A ∈ g.blockIds) (he : e ∈ g.succEdges A) : g.edgeOwner e = A := by
  by_contra hne
  have heid : e ∈ CFG.edgeIds g := List.mem_flatMap.mpr ⟨A, hA, he⟩
  obtain ⟨hOb, hOe⟩ := hg.ownerMem e heid
  obtain ⟨s, t, hst⟩ := List.append_of_mem hA
  have hcount : (CFG.edgeIds g).count e ≤ 1 :=
    List.nodup_iff_count_le_one.mp hg.edgesNodup e
  have hsplit : CFG.edgeIds g =
      s.flatMap g.succEdges ++ (g.succEdges A ++ t.flatMap g.succEdges) := by
    rw [CFG.edgeIds, hst, List.flatMap_append, List.flatMap_cons]
  have hOmem : g.edgeOwner e ∈ s ∨ g.edgeOwner e ∈ t := by
    rw [hst] at hOb
    rcases List.mem_append.mp hOb with h | h
    · exact Or.inl h
    · rcases List.mem_cons.mp h with h' | h'
      · exact absurd h' hne
      · exact Or.inr h'
    -- the owner is a block other than A, so it sits in s or t
  have hmem2 : e ∈ s.flatMap g.succEdges ∨ e ∈ t.flatMap g.succEdges := by
    rcases hOmem with h | h
    · exact Or.inl (List.mem_flatMap.mpr ⟨g.edgeOwner e, h, hOe⟩)
    · exact Or.inr (List.mem_flatMap.mpr ⟨g.edgeOwner e, h, hOe⟩)
  have h1 : 0 < (g.succEdges A).count e := List.count_pos_iff.mpr he
  rw [hsplit, List.count_append, List.count_append] at hcount
  rcases hmem2 with h | h
  · have := List.count_pos_iff.mpr h
    omega
  · have := List.count_pos_iff.mpr h
    omega

theorem CFG.countP_owned_flatMap_ne {g : CFG} (hg : CFG.WF g) (A : BlockId)
    (q : EdgeId → Bool) (bs : List BlockId)
    (hbs : ∀ blk ∈ bs, blk ∈ g.blockIds ∧ blk ≠ A) :
    (bs.flatMap g.succEdges).countP (fun e => (g.edgeOwner e == A) && q e)
      = 0 := by
  induction bs with
  | nil => rfl
  | cons blk rest ih =>
    rw [List.flatMap_cons, List.countP_append,
      ih fun b hb => hbs b (List.mem_cons_of_mem _ hb), Nat.add_zero,
      List.countP_eq_zero]
    intro e he'
    have hob : g.edgeOwner e = blk :=
      CFG.owner_eq hg (hbs blk (List.mem_cons_self _ _)).1 he'
    simp [hob, (hbs blk (List.mem_cons_self _ _)).2]

theorem CFG.countP_owned_self {g : CFG} (hg : CFG.WF g) {A : BlockId}
    (hA : A ∈ g.blockIds) (q : EdgeId → Bool) :
    (g.succEdges A).countP (fun e => (g.edgeOwner e == A) && q e)
      = (g.succEdges A).countP q := by
  refine List.countP_congr fun e he => ?_
  simp [CFG.owner_eq hg hA he]

theorem CFG.countP_owner_and {g : CFG} (hg : CFG.WF g) {A : BlockId}
    (hA : A ∈ g.blockIds) (q : EdgeId → Bool) :
    (CFG.edgeIds g).countP (fun e => (g.edgeOwner e == A) && q e)
      = (g.succEdges A).countP q := by
  obtain ⟨s, t, hst⟩ := List.append_of_mem hA
  have hnd : (s ++ A :: t).Nodup := hst ▸ hg.blocksNodup
  have hAs : A ∉ s := fun h =>
    List.disjoint_of_nodup_append hnd h (List.mem_cons_self _ _)
  have hAt : A ∉ t :=
    List.nodup_cons.mp ((List.nodup_append.mp hnd).2.1) |>.1
  have hs : ∀ blk ∈ s, blk ∈ g.blockIds ∧ blk ≠ A := fun blk hb =>
    ⟨hst ▸ List.mem_append_left _ hb, fun hblk => hAs (hblk ▸ hb)⟩
  have ht : ∀ blk ∈ t, blk ∈ g.blockIds ∧ blk ≠ A := fun blk hb =>
    ⟨hst ▸ List.mem_append_right _ (List.mem_cons_of_mem _ hb),
      fun hblk => hAt (hblk ▸ hb)⟩
  rw [CFG.edgeIds, hst, List.flatMap_append, List.flatMap_cons,
    List.countP_append, List.countP_append,
    CFG.countP_owned_flatMap_ne hg A q s hs,
    CFG.countP_owned_flatMap_ne hg A q t ht,
    CFG.countP_owned_self hg hA q]
  omega

/-- C9: `getPredecessorBlocks()` enumerates one element per incoming edge,
not deduplicated by block — a source block owning `k` edges that currently
target `B` appears exactly `k` times. -/
theorem c9_predecessors_enumerate_per_edge (g : CFG) (hg : CFG.WF g)
    (A B : BlockId) (hA : A ∈ g.blockIds) :
    (CFG.predecessorBlocks g B).count A =
      (g.succEdges A).countP fun e => g.edgeTarget e = B := by
  rw [CFG.predecessorBlocks, List.count_eq_countP, List.countP_map,
    (CFG.predHead_perm hg B).countP_eq, List.countP_filter]
  exact CFG.countP_owner_and hg hA _

theorem c9_predecessors_enumerate_per_edge_witness :
    (CFG.predecessorBlocks exampleCFG 1).count 0 = 2 ∧
    (CFG.predecessorBlocks exampleCFG 2).count 1 = 1 ∧
    (CFG.predecessorBlocks exampleCFG 1).count 1 = 0 := by
  refine ⟨?_, ?_, ?_⟩
  · exact (c9_predecessors_enumerate_per_edge exampleCFG exampleCFG_WF 0 1
      (by decide)).trans (by decide)
  · exact (c9_predecessors_enumerate_per_edge exampleCFG exampleCFG_WF 1 2
      (by decide)).trans (by decide)
  · exact (c9_predecessors_enumerate_per_edge exampleCFG exampleCFG_WF 1 1
      (by decide)).trans (by decide)

theorem splitMap_skip (b newB : BlockId) (k : Nat)
    (l : List (BlockId × List SILInstruction)) (h : ∀ p ∈ l, p.1 ≠ b) :
    (l.flatMap fun p =>
      if p.1 = b then [(b, p.2.take k), (newB, p.2.drop k)] else [p]) = l := by
  induction l with
  | nil => rfl
  | cons p rest ih =>
    rw [List.flatMap_cons, if_neg (h p (List.mem_cons_self _ _)),
      ih fun q hq => h q (List.mem_cons_of_mem _ hq)]
    rfl

/-- C1: `split(k)` on block `b` of a function leaves `b` with the
instructions strictly before `k` (none of which is a terminator), gives the
new block the instructions from `k` to the end in the original order, the two
halves concatenate to the original sequence, and the new block is inserted
immediately after `b` in the function's block order. -/
theorem c1_split_roundtrip (f : SILFunctionM) (b newB : BlockId) (k : Nat)
    (insts : List SILInstruction) (l1 l2 : List (BlockId × List SILInstruction))
    (hf : f.blocks = l1 ++ (b, insts) :: l2)
    (h1 : ∀ p ∈ l1, p.1 ≠ b) (h2 : ∀ p ∈ l2, p.1 ≠ b)
    (hwf : wellFormedSeq insts) (hk : k < insts.length) :
    (f.split b newB k).blocks =
      l1 ++ (b, insts.take k) :: (newB, insts.drop k) :: l2 ∧
    insts.take k ++ insts.drop k = insts ∧
    (insts.take k).length = k ∧
    (insts.drop k).length = insts.length - k ∧
    (∀ inst ∈ insts.take k, inst.isTerm = false) := by
  refine ⟨?_, List.take_append_drop k insts, ?_, List.length_drop k insts,
    fun inst hmem => ?_⟩
  · rw [SILFunctionM.split, hf, List.flatMap_append, List.flatMap_cons,
      if_pos rfl, splitMap_skip b newB k l1 h1, splitMap_skip b newB k l2 h2]
    rfl
  · rw [List.length_take]
    omega
  · obtain ⟨i, hi, heq⟩ := List.mem_iff_getElem.mp hmem
    have hik : i < k := by
      have := List.length_take k insts
      omega
    have hilt : i < insts.length := by omega
    have hne : ¬i = insts.length - 1 := by omega
    have : insts[i].isTerm = true ↔ i = insts.length - 1 := hwf.2 i hilt
    rw [← heq, List.getElem_take]
    rcases hb : insts[i].isTerm with _ | _
    · rfl
    · exact absurd (this.mp hb) hne

theorem c1_split_roundtrip_witness :
    (SILFunctionM.split
        ⟨[(0, [⟨0, false, [], []⟩, ⟨1, false, [], []⟩, ⟨2, true, [], [1, 2]⟩])]⟩
        0 1 2).blocks =
      [(0, [⟨0, false, [], []⟩, ⟨1, false, [], []⟩]),
        (1, [⟨2, true, [], [1, 2]⟩])] ∧
    (∀ inst ∈ [(⟨0, false, [], []⟩ : SILInstruction), ⟨1, false, [], []⟩],
      inst.isTerm = false) := by
  have h := c1_split_roundtrip
    ⟨[(0, [⟨0, false, [], []⟩, ⟨1, false, [], []⟩, ⟨2, true, [], [1, 2]⟩])]⟩
    0 1 2 [⟨0, false, [], []⟩, ⟨1, false, [], []⟩, ⟨2, true, [], [1, 2]⟩] [] []
    rfl (by decide) (by decide) ⟨by decide, by decide⟩ (by decide)
  exact ⟨h.1.trans (by decide), h.2.2.2.2⟩
